import Mathlib

/-!
Verification of the metaL core node model (src/metaL.py).

The Python `Object` class is a mutable graph node (possibly cyclic, children
are shared references compared by identity).  We embed it as an arena:
a `Heap` is a list of `Obj` records, a node reference is its index (`Nat`),
which also plays the role of the Python `id()` / `gid`.  Python `==` on
`Object`s is identity, which the arena models as equality of indices.

Mutating methods are translated as functions `Heap → ... → Heap × Except PyErr Nat`:
they return the updated arena together with either the receiver's index
(`return self`) or the raised error; mutations performed before the raise
persist in the returned arena, exactly as in Python.
-/

/-- Variant of a node: the concrete Python class it was built from
(`Object`, `S`, `Sec`, `Fn`, `HTML`, `HTMLI`, `HTMLS`).  In the source the
dispatch is `isinstance`/method override; per the design notes we carry the
variant as explicit data. -/
inductive NKind where
  | obj
  | s
  | sec
  | fn
  | html
  | htmli
  | htmls
deriving DecidableEq, Repr

/-- `tag()` is the Python class name lower-cased. -/
def NKind.tagName : NKind → String
  | .obj => "object"
  | .s => "s"
  | .sec => "sec"
  | .fn => "fn"
  | .html => "html"
  | .htmli => "htmli"
  | .htmls => "htmls"

/-- One node of the hypergraph: `value` (scalar payload, `none` = Python `None`),
`slot` (named children: insertion-ordered association list with unique keys,
like a Python dict), `nest` (ordered children), plus the extra fields of the
`S` (`pfx`/`end`/`sfx`) and `Fn` (`args`/`ret`) subclasses. -/
structure Obj where
  kind : NKind := .obj
  value : Option String := none
  slot : List (String × Nat) := []
  nest : List Nat := []
  pfx : Option String := none
  endm : Option String := none
  sfx : Option String := none
  args : List String := []
  ret : Option String := none
deriving DecidableEq, Repr

instance : Inhabited Obj := ⟨{}⟩

abbrev Heap := List Obj

/-- Dereference a node index.  An out-of-arena index yields the default
(empty) node; theorems about real Python objects carry validity hypotheses. -/
def hGet (h : Heap) (i : Nat) : Obj := h.getD i default

/-- In-place mutation of the node at index `i`. -/
def hMod (h : Heap) (i : Nat) (f : Obj → Obj) : Heap := h.set i (f (hGet h i))

/-- Python values that may be handed to the algebra operators: a node
reference, a raw string, or something else (here `int` / `None`), which
`box` rejects. -/
inductive PyVal where
  | node (i : Nat)
  | str (s : String)
  | int (n : Int)
  | pynone
deriving DecidableEq, Repr

/-- `type(that).__name__`-style tag used in raised `TypeError`s. -/
def PyVal.typeName : PyVal → String
  | .node _ => "Object"
  | .str _ => "str"
  | .int _ => "int"
  | .pynone => "NoneType"

/-- Display form of the offending value carried inside a raised error. -/
def PyVal.reprStr : PyVal → String
  | .node i => toString i
  | .str s => s
  | .int n => toString n
  | .pynone => "None"

/-- `box` accepts exactly nodes and strings. -/
def PyVal.coercible : PyVal → Bool
  | .node _ => true
  | .str _ => true
  | _ => false

/-- Whether the value is a Python `int` (for the `assert isinstance(idx, int)`
guard of `Object.ins`). -/
def PyVal.isInt : PyVal → Bool
  | .int _ => true
  | _ => false

/-- Errors raised by the embedded methods.  `typeError fn ty rep` models
`TypeError([fn, type(x), x])`: it names the method, the offending value's
type and the value itself. -/
inductive PyErr where
  | typeError (fn : String) (ty : String) (rep : String)
  | assertionError
  | indexError (msg : String)
deriving DecidableEq, Repr

/-- The fresh scalar leaf `S(that)` allocated by `box` for a raw string:
`S.__init__` stores the string as `value` and leaves `end`/`pfx`/`sfx`
as `None`; `Object.__init__` makes `slot`/`nest` empty. -/
def sLeaf (s : String) : Obj := { kind := .s, value := some s }

/-- `Object.box` (src/metaL.py lines 28-31): a `Node` is returned unchanged,
a raw string is wrapped into a fresh scalar leaf, anything else raises
`TypeError(['box', type(that), that])`. -/
def box (h : Heap) : PyVal → Heap × Except PyErr Nat
  | .node i => (h, .ok i)
  | .str s => (h ++ [sLeaf s], .ok h.length)
  | v => (h, .error (.typeError "box" v.typeName v.reprStr))

/-- Python-dict assignment on an association list: replace the value at the
first occurrence of the key (keeping its position), else append. -/
def slotSet : List (String × Nat) → String → Nat → List (String × Nat)
  | [], k, v => [(k, v)]
  | (k', v') :: rest, k, v =>
    if k' = k then (k, v) :: rest else (k', v') :: slotSet rest k v

/-- Python-dict lookup on an association list. -/
def slotLookup : List (String × Nat) → String → Option Nat
  | [], _ => none
  | (k', v') :: rest, k => if k' = k then some v' else slotLookup rest k

/-- Keys that may index a named child: a string (accepted) or an `int`
(rejected by `__setitem__` with a `TypeError`). -/
inductive KeyV where
  | ks (s : String)
  | ki (n : Int)
deriving DecidableEq, Repr

/-- `Object.__setitem__` (src/metaL.py lines 94-97): `that` is boxed first
(so a fresh leaf may be allocated even when the key is later rejected),
then a string key stores into `slot` and returns `self`, any other key
raises `TypeError(['__setitem__', type(key), key])`. -/
def setitem (h : Heap) (self : Nat) (key : KeyV) (that : PyVal) :
    Heap × Except PyErr Nat :=
  match box h that with
  | (h', .error e) => (h', .error e)
  | (h', .ok tid) =>
    match key with
    | .ks k => (hMod h' self (fun o => { o with slot := slotSet o.slot k tid }), .ok self)
    | .ki n => (h', .error (.typeError "__setitem__" "int" (toString n)))

/-- Index clamping performed by Python's `list.insert`: a negative index
counts from the end (clamped at 0), a too-large index clamps to the length. -/
def pyInsertPos (n : Nat) (idx : Int) : Nat :=
  if idx < 0 then
    (if idx + n < 0 then 0 else (idx + n).toNat)
  else min idx.toNat n

/-- Python `l.insert(idx, x)`. -/
def pyInsert (l : List Nat) (idx : Int) (x : Nat) : List Nat :=
  let p := pyInsertPos l.length idx
  l.take p ++ x :: l.drop p

/-- `Object.ins` (src/metaL.py lines 115-118): `assert isinstance(idx, int)`
runs before the coercion; then the coerced value is inserted via
`list.insert`, which clamps out-of-range indices instead of failing. -/
def ins (h : Heap) (self : Nat) (idx : PyVal) (that : PyVal) :
    Heap × Except PyErr Nat :=
  match idx with
  | .int n =>
    match box h that with
    | (h', .error e) => (h', .error e)
    | (h', .ok tid) =>
      (hMod h' self (fun o => { o with nest := pyInsert o.nest n tid }), .ok self)
  | _ => (h, .error .assertionError)

/-- The rebuild loop of `Object.before` (src/metaL.py lines 129-136): walk
`nest`, emitting the new element before every element equal (by identity)
to the anchor. -/
def beforeList : List Nat → Nat → Nat → List Nat
  | [], _, _ => []
  | i :: rest, w, t =>
    if i = w then t :: i :: beforeList rest w t else i :: beforeList rest w t

/-- The rebuild loop of `Object.after` (src/metaL.py lines 139-146). -/
def afterList : List Nat → Nat → Nat → List Nat
  | [], _, _ => []
  | i :: rest, w, t =>
    if i = w then i :: t :: afterList rest w t else i :: afterList rest w t

/-- `Object.before`: `assert isinstance(where, Object)`, coerce `that`,
rebuild `nest` inserting before every occurrence of `where`. -/
def before (h : Heap) (self : Nat) (whereV : PyVal) (that : PyVal) :
    Heap × Except PyErr Nat :=
  match whereV with
  | .node w =>
    match box h that with
    | (h', .error e) => (h', .error e)
    | (h', .ok tid) =>
      (hMod h' self (fun o => { o with nest := beforeList o.nest w tid }), .ok self)
  | _ => (h, .error .assertionError)

/-- `Object.after`: same shape, inserting after every occurrence. -/
def after (h : Heap) (self : Nat) (whereV : PyVal) (that : PyVal) :
    Heap × Except PyErr Nat :=
  match whereV with
  | .node w =>
    match box h that with
    | (h', .error e) => (h', .error e)
    | (h', .ok tid) =>
      (hMod h' self (fun o => { o with nest := afterList o.nest w tid }), .ok self)
  | _ => (h, .error .assertionError)

/-- `Object.drop` with the default `idx=-1` (src/metaL.py lines 155-157):
`for i in range(num): self.nest.pop(-1)`.  Each iteration mutates the
receiver; popping an empty list raises `IndexError` and every pop already
performed persists. -/
def dropEnd (h : Heap) (self : Nat) : Nat → Heap × Except PyErr Nat
  | 0 => (h, .ok self)
  | num + 1 =>
    if (hGet h self).nest = [] then (h, .error (.indexError "pop from empty list"))
    else dropEnd (hMod h self (fun o => { o with nest := o.nest.dropLast })) self num

/-- Python `f-string` rendering of the scalar payload (`None` prints as
`"None"`). -/
def pyStr : Option String → String
  | none => "None"
  | some s => s

/-- Indentation of a dump line: `'\n' + '\t' * depth`. -/
def pad (depth : Nat) : String := "\n" ++ String.mk (List.replicate depth '\t')

/-- `Object.head`: `f'{prefix}<{tag}:{val}>{gid}'`, where the `@gid` suffix
(hexadecimal identity) is omitted in `test` mode. -/
def headOf (o : Obj) (gid : Nat) (pfx : String) (test : Bool) : String :=
  pfx ++ "<" ++ o.kind.tagName ++ ":" ++ pyStr o.value ++ ">" ++
    (if test then "" else " @" ++ String.mk (Nat.toDigits 16 gid))

/-- Code-point comparison of characters (Python compares strings by code
point). -/
def charLtB (a b : Char) : Bool := a.val.toNat < b.val.toNat

/-- Lexicographic `<=` on character lists. -/
def lexLe : List Char → List Char → Bool
  | [], _ => true
  | _ :: _, [] => false
  | x :: xs, y :: ys =>
    if charLtB x y then true
    else if charLtB y x then false
    else lexLe xs ys

/-- Python's `<=` on strings: lexicographic by code point. -/
def strLe (a b : String) : Bool := lexLe a.toList b.toList

/-- Insert into a sorted list of keys. -/
def insSorted (k : String) : List String → List String
  | [] => [k]
  | x :: xs => if strLe k x then k :: x :: xs else x :: insSorted k xs

/-- `sorted(keys)`: Python's lexicographic sort of the slot names
(insertion sort; stability is irrelevant since dict keys are distinct). -/
def sortKeys : List String → List String
  | [] => []
  | x :: xs => insSorted x (sortKeys xs)

/-- The children visited by `Object.dump`, in visiting order with their line
prefixes: first the named children in sorted-key order (prefix `key = `),
then the ordered children (prefix `i: `). -/
def dumpKids (o : Obj) : List (String × Nat) :=
  (sortKeys (o.slot.map Prod.fst)).map
      (fun k => (k ++ " = ", (slotLookup o.slot k).getD 0)) ++
    o.nest.enum.map (fun p => (toString p.1 ++ ": ", p.2))

/-- Sequencing of child dumps: each child receives the visited set left by
its predecessor (in Python the `cycle` list is mutated in place and thus
shared by the whole traversal). -/
def runList (g : Nat → List Nat → String → Option (String × List Nat)) :
    List (String × Nat) → List Nat → Option (String × List Nat)
  | [], cyc => some ("", cyc)
  | (pfx, c) :: rest, cyc =>
    match g c cyc pfx with
    | none => none
    | some (s, cyc') =>
      match runList g rest cyc' with
      | none => none
      | some (s', cyc'') => some (s ++ s', cyc'')

/-- `Object.dump` (src/metaL.py lines 44-59), with an explicit recursion
budget (`none` = budget exhausted; the termination theorem shows a budget of
`h.length + 2` always suffices).  At depth 0 the visited list is reset
(`if not depth: cycle = []`); a revisited node emits its header plus the
`' _/'` cycle marker and is not descended into. -/
def dumpF : Nat → Heap → Nat → List Nat → Nat → String → Bool →
    Option (String × List Nat)
  | 0, _, _, _, _, _, _ => none
  | fuel + 1, h, id, cycle, depth, pfx, test =>
    let cyc0 := if depth = 0 then [] else cycle
    let o := hGet h id
    let hd := pad depth ++ headOf o id pfx test
    if id ∈ cyc0 then some (hd ++ " _/", cyc0)
    else
      match runList (fun c cyc p => dumpF fuel h c cyc (depth + 1) p test)
          (dumpKids o) (cyc0 ++ [id]) with
      | none => none
      | some (s, cyc2) => some (hd ++ s, cyc2)

/-- The concrete `File` subclass a sink belongs to; `Fn.gen` dispatches on
it via `isinstance`. -/
inductive FileKind where
  | rs
  | py
  | html
  | tera
  | giti
  | plain
deriving DecidableEq, Repr

/-- Python class name of the sink, used in the `TypeError` raised for an
unsupported dialect. -/
def FileKind.clsName : FileKind → String
  | .rs => "rsFile"
  | .py => "pyFile"
  | .html => "htmlFile"
  | .tera => "teraFile"
  | .giti => "giti"
  | .plain => "File"

/-- The sink descriptor: indentation unit `tab`, single-line `comment`
marker, and the dialect (concrete `File` class). -/
structure Sink where
  tab : String := "    "
  comment : String := "#"
  kind : FileKind := .plain
deriving DecidableEq, Repr

/-- Rendering failures: exhausted recursion budget (the Python code would
recurse forever on a cyclic tree), or a raised `TypeError`. -/
inductive GenErr where
  | outOfFuel
  | typeError (fn : String) (info : String)
deriving DecidableEq, Repr

/-- `s * n` for strings (`sk.tab * depth`). -/
def strRepeat (s : String) (n : Nat) : String := String.join (List.replicate n s)

/-- One indented output line `f'{sk.tab*depth}{s}\n'`. -/
def tabLine (sk : Sink) (depth : Nat) (s : String) : String :=
  strRepeat sk.tab depth ++ s ++ "\n"

/-- The `pfx`/`sfx` convention of `S.gen` and `Sec.gen`: `None` emits
nothing, the empty string emits a single bare newline, any other string
emits an indented line. -/
def optLine (sk : Sink) (depth : Nat) : Option String → String
  | none => ""
  | some p => if p = "" then "\n" else tabLine sk depth p

/-- The `value`/`end` convention of `S.gen`: `None` emits nothing, any
string (empty included) emits an indented line. -/
def optTabLine (sk : Sink) (depth : Nat) : Option String → String
  | none => ""
  | some s => tabLine sk depth s

/-- Sequential rendering of a child list; the first raised error aborts the
whole render (no partial output is returned). -/
def genKids (g : Nat → Nat → Bool → Except GenErr String) :
    List Nat → Nat → Bool → Except GenErr String
  | [], _, _ => .ok ""
  | c :: rest, depth, inl =>
    match g c depth inl with
    | .error e => .error e
    | .ok s =>
      match genKids g rest depth inl with
      | .error e => .error e
      | .ok s' => .ok (s ++ s')

/-- The non-inline body of `S.gen` (src/metaL.py lines 183-198): optional
prefix line, optional value line, children one depth deeper, optional end
line, optional suffix line.  `Fn.gen` reuses it on a synthesized `S`. -/
def sCore (g : Nat → Nat → Bool → Except GenErr String) (sk : Sink)
    (value pfx endm sfx : Option String) (nest : List Nat) (depth : Nat) :
    Except GenErr String :=
  match genKids g nest (depth + 1) false with
  | .error e => .error e
  | .ok body =>
    .ok (optLine sk depth pfx ++ optTabLine sk depth value ++ body ++
      optTabLine sk depth endm ++ optLine sk depth sfx)

/-- The open banner line of `Sec.gen`: `f'{sk.comment} \ {value}'`. -/
def secOpen (sk : Sink) (v : String) : String := sk.comment ++ " \\ " ++ v

/-- The close banner line of `Sec.gen`: `f'{sk.comment} / {value}'`. -/
def secClose (sk : Sink) (v : String) : String := sk.comment ++ " / " ++ v

/-- Attribute serialization of `HTML.gen_head` (src/metaL.py lines
1481-1487): nothing when `slot` is empty, else a space plus
space-separated `key="value"` pairs in sorted key order (the value being
the slot child's scalar). -/
def attrsStr (h : Heap) (o : Obj) : String :=
  let ks := sortKeys (o.slot.map Prod.fst)
  if ks = [] then ""
  else " " ++ String.intercalate " "
    (ks.map (fun k =>
      k ++ "=\"" ++ pyStr ((hGet h ((slotLookup o.slot k).getD 0)).value) ++ "\""))

/-- The argument list of `Fn.gen`: `', '.join(self.args)`. -/
def fnArgs (o : Obj) : String := String.intercalate ", " o.args

/-- The return annotation of `Fn.gen`: `' '` or `f' -> {ret} '`. -/
def fnRets (o : Obj) : String :=
  match o.ret with
  | none => " "
  | some r => " -> " ++ r ++ " "

/-- The polymorphic render entry point, dispatching on the node variant
exactly as the per-class `gen` overrides do, with an explicit recursion
budget (the engine assumes the tree is acyclic; a cycle exhausts the
budget).  `Sec.gen` and `Fn.gen` take no `inline` parameter, so invoking
them with one (as `HTMLI.gen` does for its children) raises a `TypeError`
in Python; the base `Object` has no `gen` at all. -/
def gen : Nat → Heap → Sink → Nat → Nat → Bool → Except GenErr String
  | 0, _, _, _, _, _ => .error .outOfFuel
  | fuel + 1, h, sk, id, depth, inl =>
    let o := hGet h id
    let g := fun c d i => gen fuel h sk c d i
    match o.kind with
    | .s =>
      if inl then .ok (pyStr o.value)
      else sCore g sk o.value o.pfx o.endm o.sfx o.nest depth
    | .sec =>
      if inl then .error (.typeError "gen" "Sec.gen got an unexpected inline argument")
      else if o.nest.isEmpty then .ok ""
      else
        match genKids g o.nest depth false with
        | .error e => .error e
        | .ok body =>
          .ok (optLine sk depth o.pfx ++
            optTabLine sk depth (o.value.map (secOpen sk)) ++ body ++
            optTabLine sk depth (o.value.map (secClose sk)) ++
            optLine sk depth o.sfx)
    | .fn =>
      if inl then .error (.typeError "gen" "Fn.gen got an unexpected inline argument")
      else
        match sk.kind with
        | .rs =>
          sCore g sk
            (some ("fn " ++ pyStr o.value ++ "(" ++ fnArgs o ++ ")" ++ fnRets o ++ "\x7b"))
            o.pfx (some "\x7d") o.sfx o.nest depth
        | .py =>
          sCore g sk
            (some ("def " ++ pyStr o.value ++ "(" ++ fnArgs o ++ "):"))
            o.pfx none o.sfx o.nest depth
        | k => .error (.typeError "gen" k.clsName)
    | .html =>
      match genKids g o.nest (depth + 1) false with
      | .error e => .error e
      | .ok body =>
        .ok (strRepeat sk.tab depth ++ "<" ++ pyStr o.value ++ attrsStr h o ++ ">\n" ++
          body ++ strRepeat sk.tab depth ++ "</" ++ pyStr o.value ++ ">\n")
    | .htmli =>
      match genKids g o.nest (depth + 1) true with
      | .error e => .error e
      | .ok body =>
        .ok (strRepeat sk.tab depth ++ "<" ++ pyStr o.value ++ attrsStr h o ++ ">" ++
          body ++ "</" ++ pyStr o.value ++ ">\n")
    | .htmls =>
      .ok (strRepeat sk.tab depth ++ "<" ++ pyStr o.value ++ attrsStr h o ++ ">\n")
    | .obj => .error (.typeError "gen" "Object has no attribute gen")

example : (box [] (.node 3)).2 = .ok 3 := rfl
example : box [] (.str "hi") = ([sLeaf "hi"], .ok 0) := rfl
example : (box [] (.int 5)).2 = .error (.typeError "box" "int" "5") := rfl
example : pyInsert [10, 11] 5 99 = [10, 11, 99] := rfl
example : pyInsert [10, 11] (-5) 99 = [99, 10, 11] := rfl
example : beforeList [1, 1, 2] 1 7 = [7, 1, 7, 1, 2] := rfl
example : afterList [1, 1, 2] 1 7 = [1, 7, 1, 7, 2] := rfl
example :
    dumpF 3 [{ value := some "X", nest := [0] }] 0 [] 0 "" true =
      some ("\n<object:X>\n\t0: <object:X> _/", [0]) := rfl
example :
    dumpF 5 [{ value := some "r", slot := [("b", 1), ("a", 2)] },
             { value := some "B" }, { value := some "A" }] 0 [] 0 "" true =
      some ("\n<object:r>\n\ta = <object:A>\n\tb = <object:B>", [0, 2, 1]) := rfl
example :
    gen 3 [{ kind := .fn, value := some "run", nest := [1] }, sLeaf "x"]
      { comment := "//", kind := .rs } 0 0 false =
      .ok ("fn run() \x7b\n    x\n\x7d\n") := rfl
example :
    gen 3 [{ kind := .fn, value := some "run", nest := [1] }, sLeaf "x"]
      { kind := .py } 0 0 false = .ok ("def run():\n    x\n") := rfl
example :
    gen 3 [{ kind := .sec, value := some "v" }] { kind := .py } 0 0 false =
      .ok "" := rfl
example :
    gen 3 [{ kind := .sec, value := some "v", nest := [1] }, sLeaf "x"]
      { kind := .py } 0 0 false = .ok ("# \\ v\nx\n# / v\n") := rfl
example :
    gen 5 [{ kind := .htmli, value := some "title", nest := [1] },
           { kind := .s, value := some "v", nest := [2] },
           { kind := .s, value := some "g" }]
      { kind := .html } 0 0 false = .ok ("<title>v</title>\n") := rfl

/-! ## Helper lemmas on the arena -/

theorem hGet_append (h : Heap) (l : List Obj) (i : Nat) (hi : i < h.length) :
    hGet (h ++ l) i = hGet h i := by
  induction h generalizing i with
  | nil => simp at hi
  | cons a rest ih =>
    cases i with
    | zero => rfl
    | succ j =>
      simp only [List.cons_append]
      show hGet (rest ++ l) j = hGet rest j
      exact ih j (by simpa using hi)

theorem hGet_set_self (h : Heap) (i : Nat) (o : Obj) (hi : i < h.length) :
    hGet (h.set i o) i = o := by
  induction h generalizing i with
  | nil => simp at hi
  | cons a rest ih =>
    cases i with
    | zero => rfl
    | succ j =>
      show hGet (rest.set j o) j = o
      exact ih j (by simpa using hi)

theorem hGet_set_ne (h : Heap) (i j : Nat) (o : Obj) (hij : i ≠ j) :
    hGet (h.set i o) j = hGet h j := by
  induction h generalizing i j with
  | nil => rfl
  | cons a rest ih =>
    cases i with
    | zero =>
      cases j with
      | zero => omega
      | succ j' => rfl
    | succ i' =>
      cases j with
      | zero => rfl
      | succ j' =>
        show hGet (rest.set i' o) j' = hGet rest j'
        exact ih i' j' (by omega)

theorem hMod_length (h : Heap) (i : Nat) (f : Obj → Obj) :
    (hMod h i f).length = h.length := by
  simp [hMod]

theorem hGet_hMod_self (h : Heap) (i : Nat) (f : Obj → Obj) (hi : i < h.length) :
    hGet (hMod h i f) i = f (hGet h i) :=
  hGet_set_self h i _ hi

/-- The node index produced by a successful coercion. -/
def boxId (h : Heap) (v : PyVal) : Nat := ((box h v).2.toOption).getD 0

theorem box_snd_coercible (h : Heap) (v : PyVal) (hv : v.coercible = true) :
    (box h v).2 = .ok (boxId h v) := by
  cases v <;> simp [PyVal.coercible] at hv <;> rfl

theorem box_length_le (h : Heap) (v : PyVal) : h.length ≤ (box h v).1.length := by
  cases v <;> simp [box]

theorem hGet_box_fst (h : Heap) (v : PyVal) (j : Nat) (hj : j < h.length) :
    hGet (box h v).1 j = hGet h j := by
  cases v
  case str s => exact hGet_append h _ j hj
  all_goals rfl

theorem setitem_coercible (h : Heap) (self : Nat) (k : String) (v : PyVal)
    (hv : v.coercible = true) :
    setitem h self (.ks k) v =
      (hMod (box h v).1 self
        (fun o => { o with slot := slotSet o.slot k (boxId h v) }), .ok self) := by
  cases v <;> simp [PyVal.coercible] at hv <;> rfl

theorem slotLookup_slotSet (sl : List (String × Nat)) (k : String) (v : Nat) :
    slotLookup (slotSet sl k v) k = some v := by
  induction sl with
  | nil => simp [slotSet, slotLookup]
  | cons p rest ih =>
    by_cases hk : p.1 = k
    · simp [slotSet, slotLookup, hk]
    · cases p
      simp only [slotSet, slotLookup]
      simp_all [slotSet, slotLookup]

theorem slotSet_length_of_mem (sl : List (String × Nat)) (k : String) (v : Nat)
    (hmem : (slotLookup sl k).isSome) :
    (slotSet sl k v).length = sl.length := by
  induction sl with
  | nil => simp [slotLookup] at hmem
  | cons p rest ih =>
    cases p with
    | mk k' v' =>
      by_cases hk : k' = k
      · simp [slotSet, hk]
      · simp only [slotLookup, hk, if_false] at hmem
        simp [slotSet, hk, ih hmem]

/-! ## C1: coercion -/

/-- C1: coercion is idempotent and wrapping.  A `Node` passes through `box`
unchanged (hence coercing twice equals coercing once); a raw string is
wrapped into a fresh leaf node (allocated at the previously unused index
`h.length`) whose value is the string and whose named and ordered children
are empty; any other value fails with a `TypeError` naming the offending
value and its actual type. -/
theorem box_coercion_spec :
    (∀ (h : Heap) (i : Nat), box h (.node i) = (h, .ok i)) ∧
    (∀ (h : Heap) (i : Nat), box (box h (.node i)).1 (.node i) = box h (.node i)) ∧
    (∀ (h : Heap) (s : String),
      box h (.str s) = (h ++ [sLeaf s], .ok h.length) ∧
      hGet (h ++ [sLeaf s]) h.length = sLeaf s ∧
      (sLeaf s).value = some s ∧ (sLeaf s).slot = [] ∧ (sLeaf s).nest = [] ∧
      ¬ h.length < h.length) ∧
    (∀ (h : Heap) (v : PyVal), v.coercible = false →
      box h v = (h, .error (.typeError "box" v.typeName v.reprStr))) := by
  refine ⟨fun h i => rfl, fun h i => rfl, fun h s => ⟨rfl, ?_, rfl, rfl, rfl, by omega⟩, ?_⟩
  · have : ∀ (h : Heap), hGet (h ++ [sLeaf s]) h.length = sLeaf s := by
      intro h
      induction h with
      | nil => rfl
      | cons a rest ih => exact ih
    exact this h
  · intro h v hv
    cases v <;> simp [PyVal.coercible] at hv <;> rfl

/-- Closed instance of `box_coercion_spec`: coercing the non-node,
non-string value `7` fails with a `TypeError` naming `int` and `7`. -/
theorem box_coercion_spec_witness :
    box [] (PyVal.int 7) = ([], .error (.typeError "box" "int" "7")) :=
  box_coercion_spec.2.2.2 [] (PyVal.int 7) rfl

/-! ## C3: setNamed overwrite -/

/-- C3: `A[k] = v` coerces `v` and stores it at `slot[k]`, overwriting: it
succeeds for every string key and coercible value, fails on a non-string
key, and after storing `a` then `b` under the same key the lookup yields
the coercion of `b` while the named-child count is unchanged. -/
theorem setNamed_overwrite_spec :
    (∀ (h : Heap) (self : Nat) (k : String) (v : PyVal), v.coercible = true →
      (setitem h self (.ks k) v).2 = .ok self) ∧
    (∀ (h : Heap) (self : Nat) (n : Int) (v : PyVal), v.coercible = true →
      (setitem h self (.ki n) v).2 = .error (.typeError "__setitem__" "int" (toString n))) ∧
    (∀ (h : Heap) (self : Nat) (k : String) (a b : PyVal),
      self < h.length → a.coercible = true → b.coercible = true →
      slotLookup
        (hGet (setitem (setitem h self (.ks k) a).1 self (.ks k) b).1 self).slot k
        = some (boxId (setitem h self (.ks k) a).1 b) ∧
      (hGet (setitem (setitem h self (.ks k) a).1 self (.ks k) b).1 self).slot.length
        = (hGet (setitem h self (.ks k) a).1 self).slot.length) := by
  refine ⟨?_, ?_, ?_⟩
  · intro h self k v hv
    rw [setitem_coercible h self k v hv]
  · intro h self n v hv
    cases v <;> simp [PyVal.coercible] at hv <;> rfl
  · intro h self k a b hself ha hb
    rw [setitem_coercible h self k a ha]
    set h1 := hMod (box h a).1 self
      (fun o => { o with slot := slotSet o.slot k (boxId h a) }) with hh1
    have hself1 : self < h1.length := by
      rw [hh1, hMod_length]
      exact lt_of_lt_of_le hself (box_length_le h a)
    rw [setitem_coercible h1 self k b hb]
    have hget1 : hGet h1 self =
        { hGet (box h a).1 self with
          slot := slotSet (hGet (box h a).1 self).slot k (boxId h a) } := by
      rw [hh1]
      exact hGet_hMod_self _ _ _ (lt_of_lt_of_le hself (box_length_le h a))
    have hself1b : self < (box h1 b).1.length :=
      lt_of_lt_of_le hself1 (box_length_le h1 b)
    have hget2 : hGet (hMod (box h1 b).1 self
        (fun o => { o with slot := slotSet o.slot k (boxId h1 b) })) self =
        { hGet (box h1 b).1 self with
          slot := slotSet (hGet (box h1 b).1 self).slot k (boxId h1 b) } :=
      hGet_hMod_self _ _ _ hself1b
    have hgetb : hGet (box h1 b).1 self = hGet h1 self :=
      hGet_box_fst h1 b self hself1
    constructor
    · rw [hget2, hgetb]
      exact slotLookup_slotSet _ k _
    · rw [hget2, hgetb, hget1]
      simp only
      exact slotSet_length_of_mem _ k _ (by rw [slotLookup_slotSet]; rfl)

/-- Closed instance of `setNamed_overwrite_spec`: on a one-node arena,
storing `"a"` then `"b"` under key `"k"` leaves one named child whose value
is the boxed `"b"`. -/
theorem setNamed_overwrite_spec_witness :
    slotLookup
      (hGet (setitem (setitem [({} : Obj)] 0 (.ks "k") (.str "a")).1 0
        (.ks "k") (.str "b")).1 0).slot "k"
      = some (boxId (setitem [({} : Obj)] 0 (.ks "k") (.str "a")).1 (.str "b")) ∧
    (hGet (setitem (setitem [({} : Obj)] 0 (.ks "k") (.str "a")).1 0
        (.ks "k") (.str "b")).1 0).slot.length
      = (hGet (setitem [({} : Obj)] 0 (.ks "k") (.str "a")).1 0).slot.length :=
  setNamed_overwrite_spec.2.2 [({} : Obj)] 0 "k" (.str "a") (.str "b")
    (by decide) rfl rfl

/-! ## C4: insertAt -/

/-- C4 counterexample: the claim predicts that an out-of-range integer
index is rejected, but on a node with zero ordered children `ins(5, "x")`
succeeds (returning `self`, with the coerced child appended), even though
`5` is outside `[0, 0]`. -/
theorem ins_out_of_range_accepted :
    (hGet [({} : Obj)] 0).nest.length = 0 ∧
    ¬ ((5 : Int) ≤ ((hGet [({} : Obj)] 0).nest.length : Int)) ∧
    (ins [({} : Obj)] 0 (.int 5) (.str "x")).2 = .ok 0 ∧
    (hGet (ins [({} : Obj)] 0 (.int 5) (.str "x")).1 0).nest = [1] := by
  refine ⟨rfl, by decide, rfl, rfl⟩

/-- C4 amended: `ins(idx, value)` fails (assertion error, raised before the
coercion) exactly when `idx` is not an integer; for an integer index it
coerces `value` and inserts it via Python `list.insert` semantics, which
clamp an out-of-range index to the nearer end (negative indices count from
the end) instead of rejecting it; an in-range index `0 <= idx <= len`
inserts at exactly that position. -/
theorem ins_clamped_spec :
    (∀ (h : Heap) (self : Nat) (idx : PyVal) (v : PyVal), idx.isInt = false →
      ins h self idx v = (h, .error .assertionError)) ∧
    (∀ (h : Heap) (self : Nat) (n : Int) (v : PyVal), v.coercible = true →
      (ins h self (.int n) v).2 = .ok self) ∧
    (∀ (h : Heap) (self : Nat) (n : Int) (v : PyVal),
      v.coercible = true → self < h.length →
      (hGet (ins h self (.int n) v).1 self).nest
        = pyInsert (hGet h self).nest n (boxId h v)) ∧
    (∀ (len : Nat) (n : Int), 0 ≤ n → n ≤ len → pyInsertPos len n = n.toNat) ∧
    (∀ (len : Nat) (n : Int), (len : Int) ≤ n → pyInsertPos len n = len) ∧
    (∀ (len : Nat) (n : Int), n < 0 → pyInsertPos len n = (max 0 (n + len)).toNat) ∧
    (∀ (l : List Nat) (idx : Int) (x : Nat),
      (pyInsert l idx x).length = l.length + 1) := by
  refine ⟨?_, ?_, ?_, ?_, ?_, ?_, ?_⟩
  · intro h self idx v hidx
    cases idx <;> simp [PyVal.isInt] at hidx <;> rfl
  · intro h self n v hv
    cases v <;> simp [PyVal.coercible] at hv <;> rfl
  · intro h self n v hv hself
    have hbox : ins h self (.int n) v =
        (hMod (box h v).1 self
          (fun o => { o with nest := pyInsert o.nest n (boxId h v) }), .ok self) := by
      cases v <;> simp [PyVal.coercible] at hv <;> rfl
    rw [hbox]
    rw [hGet_hMod_self _ _ _ (lt_of_lt_of_le hself (box_length_le h v))]
    rw [hGet_box_fst h v self hself]
  · intro len n h0 hlen
    simp only [pyInsertPos, if_neg (by omega : ¬ n < 0)]
    omega
  · intro len n hlen
    simp only [pyInsertPos]
    split
    · omega
    · omega
  · intro len n hneg
    simp only [pyInsertPos, if_pos hneg]
    split <;> omega
  · intro l idx x
    simp only [pyInsert]
    have hp : pyInsertPos l.length idx ≤ l.length := by
      simp only [pyInsertPos]
      split
      · split <;> omega
      · omega
    simp [List.length_take, List.length_drop]
    omega

/-- Closed instance of `ins_clamped_spec`: inserting at the in-range index
1 of a two-child node places the boxed value at position 1. -/
theorem ins_clamped_spec_witness :
    (hGet (ins [{ nest := [7, 8] }] 0 (.int 1) (.str "x")).1 0).nest
      = pyInsert (hGet [({ nest := [7, 8] } : Obj)] 0).nest 1
          (boxId [({ nest := [7, 8] } : Obj)] (.str "x")) ∧
    pyInsertPos 2 1 = 1 :=
  ⟨ins_clamped_spec.2.2.1 [{ nest := [7, 8] }] 0 1 (.str "x") rfl (by decide),
   ins_clamped_spec.2.2.2.1 2 1 (by decide) (by decide)⟩

/-! ## C5: insertBefore / insertAfter -/

/-- C5 counterexample: with the anchor occurring twice (`nest = [1, 1]`),
`before` inserts the coerced value (index 2) before *both* occurrences,
producing `[2, 1, 2, 1]`, not the `[2, 1, 1]` that insertion before only
the first occurrence would give. -/
theorem before_not_first_only :
    (hGet (before [{ nest := [1, 1] }, {}] 0 (.node 1) (.str "B")).1 0).nest
      = [2, 1, 2, 1] ∧
    (hGet (before [{ nest := [1, 1] }, {}] 0 (.node 1) (.str "B")).1 0).nest
      ≠ [2, 1, 1] := by
  refine ⟨rfl, by decide⟩

/-- C5 amended: `before` inserts the coerced value immediately before
*every* occurrence of the anchor (not only the first), `after` inserts it
immediately after every occurrence, and both are no-ops when the anchor
does not occur among the ordered children. -/
theorem before_after_every_spec :
    (∀ (l : List Nat) (w t : Nat),
      beforeList l w t = l.flatMap (fun i => if i = w then [t, i] else [i])) ∧
    (∀ (l : List Nat) (w t : Nat),
      afterList l w t = l.flatMap (fun i => if i = w then [i, t] else [i])) ∧
    (∀ (l : List Nat) (w t : Nat), w ∉ l →
      beforeList l w t = l ∧ afterList l w t = l) ∧
    (∀ (l : List Nat) (w t : Nat),
      (beforeList l w t).length = l.length + l.count w ∧
      (afterList l w t).length = l.length + l.count w) ∧
    (∀ (h : Heap) (self w : Nat) (v : PyVal), v.coercible = true →
      (before h self (.node w) v).2 = .ok self ∧
      (after h self (.node w) v).2 = .ok self) ∧
    (∀ (h : Heap) (self w : Nat) (v : PyVal), v.coercible = true →
      self < h.length →
      (hGet (before h self (.node w) v).1 self).nest
        = beforeList (hGet h self).nest w (boxId h v) ∧
      (hGet (after h self (.node w) v).1 self).nest
        = afterList (hGet h self).nest w (boxId h v)) := by
  have hbl : ∀ (l : List Nat) (w t : Nat),
      beforeList l w t = l.flatMap (fun i => if i = w then [t, i] else [i]) := by
    intro l w t
    induction l with
    | nil => rfl
    | cons a rest ih =>
      by_cases ha : a = w <;> simp [beforeList, ha, ih]
  have hal : ∀ (l : List Nat) (w t : Nat),
      afterList l w t = l.flatMap (fun i => if i = w then [i, t] else [i]) := by
    intro l w t
    induction l with
    | nil => rfl
    | cons a rest ih =>
      by_cases ha : a = w <;> simp [afterList, ha, ih]
  refine ⟨hbl, hal, ?_, ?_, ?_, ?_⟩
  · intro l w t hw
    constructor
    · induction l with
      | nil => rfl
      | cons a rest ih =>
        have ha : a ≠ w := fun hc => hw (hc ▸ List.mem_cons_self a rest)
        simp [beforeList, ha, ih (fun hc => hw (List.mem_cons_of_mem a hc))]
    · induction l with
      | nil => rfl
      | cons a rest ih =>
        have ha : a ≠ w := fun hc => hw (hc ▸ List.mem_cons_self a rest)
        simp [afterList, ha, ih (fun hc => hw (List.mem_cons_of_mem a hc))]
  · intro l w t
    constructor
    · induction l with
      | nil => rfl
      | cons a rest ih =>
        by_cases ha : a = w <;> simp [beforeList, ha, ih, List.count_cons] <;> omega
    · induction l with
      | nil => rfl
      | cons a rest ih =>
        by_cases ha : a = w <;> simp [afterList, ha, ih, List.count_cons] <;> omega
  · intro h self w v hv
    cases v <;> simp [PyVal.coercible] at hv <;> exact ⟨rfl, rfl⟩
  · intro h self w v hv hself
    have hb : before h self (.node w) v =
        (hMod (box h v).1 self
          (fun o => { o with nest := beforeList o.nest w (boxId h v) }), .ok self) := by
      cases v <;> simp [PyVal.coercible] at hv <;> rfl
    have ha : after h self (.node w) v =
        (hMod (box h v).1 self
          (fun o => { o with nest := afterList o.nest w (boxId h v) }), .ok self) := by
      cases v <;> simp [PyVal.coercible] at hv <;> rfl
    constructor
    · rw [hb, hGet_hMod_self _ _ _ (lt_of_lt_of_le hself (box_length_le h v)),
        hGet_box_fst h v self hself]
    · rw [ha, hGet_hMod_self _ _ _ (lt_of_lt_of_le hself (box_length_le h v)),
        hGet_box_fst h v self hself]

/-- Closed instance of `before_after_every_spec`: both rebuilds are no-ops
when the anchor `9` is absent from `[1, 2]`. -/
theorem before_after_every_spec_witness :
    beforeList [1, 2] 9 7 = [1, 2] ∧ afterList [1, 2] 9 7 = [1, 2] :=
  before_after_every_spec.2.2.1 [1, 2] 9 7 (by decide)

/-! ## C10: popN from the end -/

/-- C10: popping `num > n` elements from the end of a node with `n` ordered
children raises an `IndexError` (pop from empty list), but only after the
`n` existing children have all been removed: the receiver is left with an
empty `nest`, not its original one. -/
theorem drop_nonatomic_spec :
    ∀ (num : Nat) (h : Heap) (self : Nat), self < h.length →
      (hGet h self).nest.length < num →
      (dropEnd h self num).2 = .error (.indexError "pop from empty list") ∧
      (hGet (dropEnd h self num).1 self).nest = [] := by
  intro num
  induction num with
  | zero => intro h self hs hl; omega
  | succ n ih =>
    intro h self hs hl
    by_cases hn : (hGet h self).nest = []
    · simp [dropEnd, hn]
    · have hstep : dropEnd h self (n + 1) =
          dropEnd (hMod h self (fun o => { o with nest := o.nest.dropLast })) self n := by
        simp [dropEnd, hn]
      rw [hstep]
      apply ih
      · rw [hMod_length]; exact hs
      · rw [hGet_hMod_self _ _ _ hs]
        simp only [List.length_dropLast]
        have : (hGet h self).nest.length ≠ 0 := by
          intro hc
          exact hn (List.eq_nil_of_length_eq_zero hc)
        omega

/-- Closed instance of `drop_nonatomic_spec`: popping 3 from a node with 2
ordered children fails but leaves the node emptied. -/
theorem drop_nonatomic_spec_witness :
    (dropEnd [{ nest := [5, 6] }] 0 3).2 = .error (.indexError "pop from empty list") ∧
    (hGet (dropEnd [{ nest := [5, 6] }] 0 3).1 0).nest = [] :=
  drop_nonatomic_spec 3 [{ nest := [5, 6] }] 0 (by decide) (by decide)

/-! ## C2: cycle-safe dump -/

/-- Membership test kept as an opaque Bool predicate so that `simp` does
not normalize it away inside filter proofs. -/
def notIn (cyc : List Nat) (i : Nat) : Bool := if i ∈ cyc then false else true

theorem notIn_true (c : List Nat) (i : Nat) (h : i ∉ c) : notIn c i = true := by
  simp [notIn, h]

theorem notIn_false (c : List Nat) (i : Nat) (h : i ∈ c) : notIn c i = false := by
  simp [notIn, h]

/-- Number of arena nodes not yet in the visited list: the quantity that
shrinks every time `dump` descends into an unvisited node. -/
def validCount (h : Heap) (cyc : List Nat) : Nat :=
  ((List.range h.length).filter (notIn cyc)).length

theorem countNotMem_anti (c1 c2 : List Nat) (hsub : c1 ⊆ c2) :
    ∀ (l : List Nat),
      (l.filter (notIn c2)).length ≤ (l.filter (notIn c1)).length := by
  intro l
  induction l with
  | nil => simp
  | cons a rest ih =>
    by_cases h2 : a ∈ c2
    · by_cases h1 : a ∈ c1
      · simpa [List.filter_cons, notIn_false _ _ h1, notIn_false _ _ h2] using ih
      · simp only [List.filter_cons, notIn_true _ _ h1, notIn_false _ _ h2]
        simp only [Bool.false_eq_true, if_false, if_true, List.length_cons]
        exact le_trans ih (Nat.le_succ _)
    · have h1 : a ∉ c1 := fun hc => h2 (hsub hc)
      simp only [List.filter_cons, notIn_true _ _ h1, notIn_true _ _ h2]
      simp only [if_true, List.length_cons]
      exact Nat.succ_le_succ ih

theorem validCount_mono (h : Heap) (c1 c2 : List Nat) (hsub : c1 ⊆ c2) :
    validCount h c2 ≤ validCount h c1 :=
  countNotMem_anti c1 c2 hsub _

theorem countNotMem_append_lt (cyc : List Nat) (a : Nat) (ha : a ∉ cyc) :
    ∀ (l : List Nat), a ∈ l →
      (l.filter (notIn (cyc ++ [a]))).length < (l.filter (notIn cyc)).length := by
  intro l
  induction l with
  | nil => intro hc; simp at hc
  | cons b rest ih =>
    intro hmem
    by_cases hb : b = a
    · subst hb
      have hin : b ∈ cyc ++ [b] := by simp
      simp only [List.filter_cons, notIn_false _ _ hin, notIn_true _ _ ha]
      simp only [Bool.false_eq_true, if_false, if_true, List.length_cons]
      calc (rest.filter (notIn (cyc ++ [b]))).length
          ≤ (rest.filter (notIn cyc)).length :=
            countNotMem_anti cyc (cyc ++ [b]) (fun x hx => by simp [hx]) rest
        _ < (rest.filter (notIn cyc)).length + 1 := Nat.lt_succ_self _
    · have hmem' : a ∈ rest := by
        cases hmem with
        | head => exact absurd rfl hb
        | tail _ hm => exact hm
      by_cases hbc : b ∈ cyc
      · have hbc2 : b ∈ cyc ++ [a] := by simp [hbc]
        simp only [List.filter_cons, notIn_false _ _ hbc, notIn_false _ _ hbc2]
        simp only [Bool.false_eq_true, if_false]
        exact ih hmem'
      · have hbc2 : b ∉ cyc ++ [a] := by simp [hbc, hb]
        simp only [List.filter_cons, notIn_true _ _ hbc, notIn_true _ _ hbc2]
        simp only [if_true, List.length_cons]
        exact Nat.succ_lt_succ (ih hmem')

theorem validCount_append_lt (h : Heap) (cyc : List Nat) (a : Nat)
    (hval : a < h.length) (ha : a ∉ cyc) :
    validCount h (cyc ++ [a]) < validCount h cyc :=
  countNotMem_append_lt cyc a ha _ (List.mem_range.mpr hval)

theorem validCount_le (h : Heap) (cyc : List Nat) : validCount h cyc ≤ h.length := by
  have := List.length_filter_le (notIn cyc) (List.range h.length)
  simpa [validCount] using this

theorem hGet_default (h : Heap) (i : Nat) (hi : h.length ≤ i) :
    hGet h i = default := by
  induction h generalizing i with
  | nil => rfl
  | cons a rest ih =>
    cases i with
    | zero => simp at hi
    | succ j => exact ih j (by simpa using hi)

theorem runList_subset (g : Nat → List Nat → String → Option (String × List Nat))
    (hg : ∀ c cyc p out, g c cyc p = some out → cyc ⊆ out.2) :
    ∀ (l : List (String × Nat)) (cyc : List Nat) (out : String × List Nat),
      runList g l cyc = some out → cyc ⊆ out.2 := by
  intro l
  induction l with
  | nil =>
    intro cyc out h
    simp only [runList, Option.some.injEq] at h
    rw [← h]
    exact fun x hx => hx
  | cons p rest ih =>
    obtain ⟨pfx, c⟩ := p
    intro cyc out h
    simp only [runList] at h
    cases hg1 : g c cyc pfx with
    | none => simp [hg1] at h
    | some o1 =>
      obtain ⟨s1, cyc1⟩ := o1
      simp only [hg1] at h
      cases hr : runList g rest cyc1 with
      | none => simp [hr] at h
      | some o2 =>
        obtain ⟨s2, cyc2⟩ := o2
        simp only [hr, Option.some.injEq] at h
        have hsub1 : cyc ⊆ cyc1 := hg c cyc pfx (s1, cyc1) hg1
        have hsub2 : cyc1 ⊆ cyc2 := ih cyc1 (s2, cyc2) hr
        rw [← h]
        exact fun x hx => hsub2 (hsub1 hx)

theorem dumpF_subset :
    ∀ (fuel : Nat) (h : Heap) (id : Nat) (cyc : List Nat) (d : Nat)
      (p : String) (t : Bool) (out : String × List Nat), d ≠ 0 →
      dumpF fuel h id cyc d p t = some out → cyc ⊆ out.2 := by
  intro fuel
  induction fuel with
  | zero => intro h id cyc d p t out hd hout; simp [dumpF] at hout
  | succ f ih =>
    intro h id cyc d p t out hd hout
    simp only [dumpF, if_neg hd] at hout
    by_cases hid : id ∈ cyc
    · rw [if_pos hid] at hout
      simp only [Option.some.injEq] at hout
      rw [← hout]
      exact fun x hx => hx
    · rw [if_neg hid] at hout
      cases hr : runList (fun c cyc' p' => dumpF f h c cyc' (d + 1) p' t)
          (dumpKids (hGet h id)) (cyc ++ [id]) with
      | none =>
        simp only [hr] at hout
        exact Option.noConfusion hout
      | some o =>
        obtain ⟨s, cyc2⟩ := o
        simp only [hr, Option.some.injEq] at hout
        have hsub : cyc ++ [id] ⊆ cyc2 :=
          runList_subset _ (fun c cyc' p' out' => ih h c cyc' (d + 1) p' t out' (by omega))
            _ _ (s, cyc2) hr
        rw [← hout]
        exact fun x hx => hsub (by simp [hx])

theorem runList_isSome (h : Heap)
    (g : Nat → List Nat → String → Option (String × List Nat)) (F : Nat)
    (hg_some : ∀ c cyc p, validCount h cyc + 2 ≤ F → (g c cyc p).isSome)
    (hg_sub : ∀ c cyc p out, g c cyc p = some out → cyc ⊆ out.2) :
    ∀ (l : List (String × Nat)) (cyc : List Nat),
      validCount h cyc + 2 ≤ F → (runList g l cyc).isSome := by
  intro l
  induction l with
  | nil => intro cyc hb; simp [runList]
  | cons p rest ih =>
    obtain ⟨pfx, c⟩ := p
    intro cyc hb
    have h1 : (g c cyc pfx).isSome := hg_some c cyc pfx hb
    cases hg1 : g c cyc pfx with
    | none => rw [hg1] at h1; simp at h1
    | some o1 =>
      obtain ⟨s1, cyc1⟩ := o1
      have hsub : cyc ⊆ cyc1 := hg_sub c cyc pfx (s1, cyc1) hg1
      have hb1 : validCount h cyc1 + 2 ≤ F := by
        have := validCount_mono h cyc cyc1 hsub
        omega
      have h2 : (runList g rest cyc1).isSome := ih cyc1 hb1
      cases hr : runList g rest cyc1 with
      | none => rw [hr] at h2; simp at h2
      | some o2 =>
        obtain ⟨s2, cyc2⟩ := o2
        simp only [runList, hg1, hr]
        rfl

theorem dumpF_isSome :
    ∀ (fuel : Nat) (h : Heap) (id : Nat) (cyc : List Nat) (d : Nat)
      (p : String) (t : Bool),
      validCount h (if d = 0 then [] else cyc) + 2 ≤ fuel →
      (dumpF fuel h id cyc d p t).isSome := by
  intro fuel
  induction fuel with
  | zero => intro h id cyc d p t hb; omega
  | succ f ih =>
    intro h id cyc d p t hb
    simp only [dumpF]
    set cyc0 := if d = 0 then [] else cyc with hcyc0
    by_cases hid : id ∈ cyc0
    · rw [if_pos hid]; rfl
    · rw [if_neg hid]
      have hg_some : ∀ c cyc' p', validCount h cyc' + 2 ≤ f →
          (dumpF f h c cyc' (d + 1) p' t).isSome := by
        intro c cyc' p' hb'
        apply ih
        have he : (if d + 1 = 0 then ([] : List Nat) else cyc') = cyc' :=
          if_neg (by omega)
        rw [he]
        exact hb'
      have hg_sub : ∀ c cyc' p' out,
          dumpF f h c cyc' (d + 1) p' t = some out → cyc' ⊆ out.2 :=
        fun c cyc' p' out => dumpF_subset f h c cyc' (d + 1) p' t out (by omega)
      by_cases hval : id < h.length
      · have hlt : validCount h (cyc0 ++ [id]) < validCount h cyc0 :=
          validCount_append_lt h cyc0 id hval hid
        have hrun : (runList (fun c cyc' p' => dumpF f h c cyc' (d + 1) p' t)
            (dumpKids (hGet h id)) (cyc0 ++ [id])).isSome :=
          runList_isSome h _ f hg_some hg_sub _ _ (by omega)
        cases hr : runList (fun c cyc' p' => dumpF f h c cyc' (d + 1) p' t)
            (dumpKids (hGet h id)) (cyc0 ++ [id]) with
        | none => rw [hr] at hrun; simp at hrun
        | some o => obtain ⟨s, cyc2⟩ := o; simp only [hr]; rfl
      · have hdef : hGet h id = default := hGet_default h id (by omega)
        rw [hdef]
        have hkids : dumpKids (default : Obj) = [] := rfl
        rw [hkids]
        simp only [runList]
        rfl

/-- C2: the debug serializer terminates and never fails on every node
graph, cyclic ones included: a budget of `h.length + 2` always suffices
(so the recursion is bounded and `dump` total); a node already in the
visited set emits its header followed by the `' _/'` cycle marker without
recursing into its children (the visited set is returned unchanged); and
on the concrete cycle `X.nest = [X]` the dump terminates with the second
visit rendered as the cycle marker. -/
theorem dump_cycle_safe :
    (∀ (h : Heap) (id : Nat) (cyc : List Nat) (depth : Nat) (pfx : String)
      (test : Bool), (dumpF (h.length + 2) h id cyc depth pfx test).isSome) ∧
    (∀ (fuel : Nat) (h : Heap) (id : Nat) (cyc : List Nat) (depth : Nat)
      (pfx : String) (test : Bool), depth ≠ 0 → id ∈ cyc →
      dumpF (fuel + 1) h id cyc depth pfx test =
        some (pad depth ++ headOf (hGet h id) id pfx test ++ " _/", cyc)) ∧
    (dumpF 3 [{ value := some "X", nest := [0] }] 0 [] 0 "" true =
      some ("\n<object:X>\n\t0: <object:X> _/", [0])) := by
  refine ⟨?_, ?_, rfl⟩
  · intro h id cyc depth pfx test
    apply dumpF_isSome
    have hle : validCount h (if depth = 0 then [] else cyc) ≤ h.length :=
      validCount_le h _
    omega
  · intro fuel h id cyc depth pfx test hd hid
    simp only [dumpF, if_neg hd, if_pos hid]

/-- Closed instance of `dump_cycle_safe`: revisiting node 0 at depth 1
emits the header plus cycle marker and does not descend. -/
theorem dump_cycle_safe_witness :
    dumpF 1 [{ value := some "X", nest := [0] }] 0 [0] 1 "0: " true =
      some (pad 1 ++ headOf (hGet [{ value := some "X", nest := [0] }] 0) 0
        "0: " true ++ " _/", [0]) :=
  dump_cycle_safe.2.1 0 [{ value := some "X", nest := [0] }] 0 [0] 1 "0: " true
    (by decide) (by decide)

/-! ## C6: dump ordering -/

theorem charLtB_asymm_eq (x y : Char) (h1 : charLtB x y = false)
    (h2 : charLtB y x = false) : x = y := by
  simp [charLtB] at h1 h2
  have h3 : x.val.toNat = y.val.toNat := by omega
  exact Char.ext (UInt32.eq_of_val_eq (Fin.ext h3))

theorem lexLe_total : ∀ (l1 l2 : List Char), lexLe l1 l2 = true ∨ lexLe l2 l1 = true := by
  intro l1
  induction l1 with
  | nil => intro l2; left; rfl
  | cons x xs ih =>
    intro l2
    cases l2 with
    | nil => right; rfl
    | cons y ys =>
      cases hxy : charLtB x y with
      | true => left; simp [lexLe, hxy]
      | false =>
        cases hyx : charLtB y x with
        | true => right; simp [lexLe, hyx]
        | false =>
          cases ih ys with
          | inl h => left; simp [lexLe, hxy, hyx, h]
          | inr h => right; simp [lexLe, hxy, hyx, h]

theorem lexLe_antisymm : ∀ (l1 l2 : List Char),
    lexLe l1 l2 = true → lexLe l2 l1 = true → l1 = l2 := by
  intro l1
  induction l1 with
  | nil =>
    intro l2 h1 h2
    cases l2 with
    | nil => rfl
    | cons y ys => simp [lexLe] at h2
  | cons x xs ih =>
    intro l2 h1 h2
    cases l2 with
    | nil => simp [lexLe] at h1
    | cons y ys =>
      cases hxy : charLtB x y with
      | true =>
        have hyx : charLtB y x = false := by
          simp [charLtB] at hxy ⊢; omega
        simp [lexLe, hxy, hyx] at h2
      | false =>
        cases hyx : charLtB y x with
        | true => simp [lexLe, hxy, hyx] at h1
        | false =>
          have hx : x = y := charLtB_asymm_eq x y hxy hyx
          subst hx
          have hrec1 : lexLe xs ys = true := by simpa [lexLe, hxy] using h1
          have hrec2 : lexLe ys xs = true := by simpa [lexLe, hxy] using h2
          rw [ih ys hrec1 hrec2]

theorem lexLe_trans : ∀ (l1 l2 l3 : List Char),
    lexLe l1 l2 = true → lexLe l2 l3 = true → lexLe l1 l3 = true := by
  intro l1
  induction l1 with
  | nil => intro l2 l3 h1 h2; rfl
  | cons x xs ih =>
    intro l2 l3 h1 h2
    cases l2 with
    | nil => simp [lexLe] at h1
    | cons y ys =>
      cases l3 with
      | nil => simp [lexLe] at h2
      | cons z zs =>
        cases hxy : charLtB x y with
        | true =>
          cases hyz : charLtB y z with
          | true =>
            have hxz : charLtB x z = true := by
              simp [charLtB] at hxy hyz ⊢; omega
            simp [lexLe, hxz]
          | false =>
            cases hzy : charLtB z y with
            | true => simp [lexLe, hyz, hzy] at h2
            | false =>
              have hyzeq : y = z := charLtB_asymm_eq y z hyz hzy
              subst hyzeq
              simp [lexLe, hxy]
        | false =>
          cases hyx : charLtB y x with
          | true => simp [lexLe, hxy, hyx] at h1
          | false =>
            have hxyeq : x = y := charLtB_asymm_eq x y hxy hyx
            subst hxyeq
            have hrec1 : lexLe xs ys = true := by simpa [lexLe, hxy] using h1
            cases hyz : charLtB x z with
            | true => simp [lexLe, hyz]
            | false =>
              cases hzy : charLtB z x with
              | true => simp [lexLe, hyz, hzy] at h2
              | false =>
                have hrec2 : lexLe ys zs = true := by simpa [lexLe, hyz, hzy] using h2
                simp [lexLe, hyz, hzy, ih ys zs hrec1 hrec2]

theorem string_toList_inj (a b : String) (h : a.toList = b.toList) : a = b := by
  cases a; cases b; exact congrArg String.mk (by simpa using h)

/-- Propositional form of the string comparison, for `List.Sorted`. -/
def strLeP (a b : String) : Prop := strLe a b = true

theorem strLeP_total (a b : String) : strLeP a b ∨ strLeP b a := lexLe_total _ _

theorem strLeP_antisymm (a b : String) (h1 : strLeP a b) (h2 : strLeP b a) : a = b :=
  string_toList_inj a b (lexLe_antisymm _ _ h1 h2)

theorem strLeP_trans (a b c : String) (h1 : strLeP a b) (h2 : strLeP b c) : strLeP a c :=
  lexLe_trans _ _ _ h1 h2

theorem insSorted_perm (k : String) : ∀ (l : List String), (insSorted k l).Perm (k :: l) := by
  intro l
  induction l with
  | nil => exact List.Perm.refl _
  | cons x xs ih =>
    by_cases h : strLe k x = true
    · simp only [insSorted, if_pos h]
      exact List.Perm.refl _
    · simp only [insSorted, if_neg h]
      exact (ih.cons x).trans (List.Perm.swap k x xs)

theorem sortKeys_perm : ∀ (l : List String), (sortKeys l).Perm l := by
  intro l
  induction l with
  | nil => exact List.Perm.refl _
  | cons x xs ih =>
    exact (insSorted_perm x (sortKeys xs)).trans (ih.cons x)

theorem insSorted_sorted (k : String) :
    ∀ (l : List String), l.Sorted strLeP → (insSorted k l).Sorted strLeP := by
  intro l
  induction l with
  | nil => intro _; simp [insSorted]
  | cons x xs ih =>
    intro hs
    rw [List.sorted_cons] at hs
    by_cases h : strLe k x = true
    · simp only [insSorted, if_pos h]
      rw [List.sorted_cons]
      refine ⟨?_, by rw [List.sorted_cons]; exact hs⟩
      intro b hb
      cases hb with
      | head => exact h
      | tail _ hbm => exact strLeP_trans k x b h (hs.1 b hbm)
    · simp only [insSorted, if_neg h]
      rw [List.sorted_cons]
      constructor
      · intro b hb
        rw [(insSorted_perm k xs).mem_iff] at hb
        cases hb with
        | head => exact (strLeP_total k x).resolve_left h
        | tail _ hbm => exact hs.1 b hbm
      · exact ih hs.2

theorem sortKeys_sorted : ∀ (l : List String), (sortKeys l).Sorted strLeP := by
  intro l
  induction l with
  | nil => simp [sortKeys]
  | cons x xs ih => exact insSorted_sorted x (sortKeys xs) ih

theorem sortKeys_eq_of_perm (l1 l2 : List String) (h : l1.Perm l2) :
    sortKeys l1 = sortKeys l2 := by
  haveI : IsAntisymm String strLeP := ⟨strLeP_antisymm⟩
  exact List.eq_of_perm_of_sorted
    ((sortKeys_perm l1).trans (h.trans (sortKeys_perm l2).symm))
    (sortKeys_sorted l1) (sortKeys_sorted l2)

theorem slotLookup_perm : ∀ (sl1 sl2 : List (String × Nat)), sl1.Perm sl2 →
    (sl1.map Prod.fst).Nodup → ∀ (k : String), slotLookup sl1 k = slotLookup sl2 k := by
  intro sl1 sl2 hperm
  induction hperm with
  | nil => intro _ k; rfl
  | cons p h ih =>
    intro hnd k
    obtain ⟨k', v'⟩ := p
    simp only [List.map_cons, List.nodup_cons] at hnd
    simp only [slotLookup]
    by_cases hk : k' = k
    · simp [hk]
    · simp [hk, ih hnd.2 k]
  | swap p q l =>
    intro hnd k
    obtain ⟨kp, vp⟩ := p
    obtain ⟨kq, vq⟩ := q
    have hne : kq ≠ kp := by
      simp only [List.map_cons, List.nodup_cons, List.mem_cons] at hnd
      exact fun hc => hnd.1 (Or.inl hc)
    by_cases hq : kq = k
    · subst hq
      simp [slotLookup, Ne.symm hne]
    · by_cases hp : kp = k <;> simp [slotLookup, hp, hq]
  | trans h12 h23 ih12 ih23 =>
    intro hnd k
    have hnd2 := ((h12.map Prod.fst).nodup_iff).mp hnd
    rw [ih12 hnd k, ih23 hnd2 k]

theorem runList_congr (g1 g2 : Nat → List Nat → String → Option (String × List Nat))
    (hg : ∀ c cyc p, g1 c cyc p = g2 c cyc p) :
    ∀ (l : List (String × Nat)) (cyc : List Nat), runList g1 l cyc = runList g2 l cyc := by
  intro l
  induction l with
  | nil => intro cyc; rfl
  | cons p rest ih =>
    intro cyc
    obtain ⟨pfx, c⟩ := p
    simp only [runList, hg c cyc pfx, ih]

theorem dumpF_congr (h1 h2 : Heap)
    (hhead : ∀ (j gid : Nat) (pfx : String) (t : Bool),
      headOf (hGet h1 j) gid pfx t = headOf (hGet h2 j) gid pfx t)
    (hkids : ∀ (j : Nat), dumpKids (hGet h1 j) = dumpKids (hGet h2 j)) :
    ∀ (fuel id : Nat) (cyc : List Nat) (d : Nat) (p : String) (t : Bool),
      dumpF fuel h1 id cyc d p t = dumpF fuel h2 id cyc d p t := by
  intro fuel
  induction fuel with
  | zero => intros; rfl
  | succ f ih =>
    intro id cyc d p t
    simp only [dumpF, hhead id id p t, hkids id]
    rw [runList_congr _ _ (fun c cyc' p' => ih c cyc' (d + 1) p' t)]

/-- C6: dump emits a node's named children strictly before its ordered
children, the named lines in sorted key order (prefix `key = `)
independent of insertion order, the ordered lines in index order (prefix
`i: `).  First conjunct: permuting the insertion order of any node's slot
leaves the entire dump output unchanged.  Remaining conjuncts: with named
children inserted as b-then-a and one ordered child, the output decomposes
with the `a = ` line strictly before the `b = ` line, which is strictly
before the `0: ` line, and the reversed insertion order produces the
identical output. -/
theorem dump_order_spec :
    (∀ (h : Heap) (i : Nat) (sl' : List (String × Nat)), i < h.length →
      (hGet h i).slot.Perm sl' → ((hGet h i).slot.map Prod.fst).Nodup →
      ∀ (fuel id : Nat) (cyc : List Nat) (d : Nat) (p : String) (t : Bool),
        dumpF fuel h id cyc d p t =
          dumpF fuel (h.set i { hGet h i with slot := sl' }) id cyc d p t) ∧
    (dumpF 6 [{ value := some "r", slot := [("b", 1), ("a", 2)], nest := [3] },
        { value := some "B" }, { value := some "A" }, { value := some "C" }]
        0 [] 0 "" true =
      some ("\n<object:r>\n\t" ++ "a = " ++ "<object:A>" ++ "\n\t" ++ "b = " ++
        "<object:B>" ++ "\n\t" ++ "0: " ++ "<object:C>", [0, 2, 1, 3])) ∧
    (dumpF 6 [{ value := some "r", slot := [("a", 2), ("b", 1)], nest := [3] },
        { value := some "B" }, { value := some "A" }, { value := some "C" }]
        0 [] 0 "" true =
      dumpF 6 [{ value := some "r", slot := [("b", 1), ("a", 2)], nest := [3] },
        { value := some "B" }, { value := some "A" }, { value := some "C" }]
        0 [] 0 "" true) := by
  refine ⟨?_, rfl, rfl⟩
  intro h i sl' hi hperm hnd fuel id cyc d p t
  apply dumpF_congr
  · intro j gid pfx t'
    by_cases hj : i = j
    · subst hj
      rw [hGet_set_self h i _ hi]
      rfl
    · rw [hGet_set_ne h i j _ hj]
  · intro j
    by_cases hj : i = j
    · subst hj
      rw [hGet_set_self h i _ hi]
      have hkeys : sortKeys (sl'.map Prod.fst) =
          sortKeys ((hGet h i).slot.map Prod.fst) :=
        sortKeys_eq_of_perm _ _ (hperm.map Prod.fst).symm
      have hfun : (fun k => (k ++ " = ", (slotLookup sl' k).getD 0)) =
          (fun k => (k ++ " = ", (slotLookup (hGet h i).slot k).getD 0)) :=
        funext (fun k => by rw [slotLookup_perm (hGet h i).slot sl' hperm hnd k])
      simp only [dumpKids, hkeys, hfun]
    · rw [hGet_set_ne h i j _ hj]

/-- Closed instance of `dump_order_spec`: reversing the slot insertion
order of the root node does not change the dump. -/
theorem dump_order_spec_witness :
    dumpF 6 [{ value := some "r", slot := [("b", 1), ("a", 2)], nest := [3] },
        { value := some "B" }, { value := some "A" }, { value := some "C" }]
        0 [] 0 "" true =
      dumpF 6 ([{ value := some "r", slot := [("b", 1), ("a", 2)], nest := [3] },
        { value := some "B" }, { value := some "A" }, { value := some "C" }].set 0
          { hGet [{ value := some "r", slot := [("b", 1), ("a", 2)], nest := [3] },
              { value := some "B" }, { value := some "A" }, { value := some "C" }] 0
            with slot := [("a", 2), ("b", 1)] })
        0 [] 0 "" true :=
  dump_order_spec.1 _ 0 [("a", 2), ("b", 1)] (by decide)
    (by exact List.Perm.swap ("a", 2) ("b", 1) []) (by decide) 6 0 [] 0 "" true

/-! ## C7: Section rendering -/

theorem sCore_ok (g : Nat → Nat → Bool → Except GenErr String) (sk : Sink)
    (value pfx endm sfx : Option String) (nest : List Nat) (depth : Nat)
    (body : String) (hbody : genKids g nest (depth + 1) false = .ok body) :
    sCore g sk value pfx endm sfx nest depth =
      .ok (optLine sk depth pfx ++ optTabLine sk depth value ++ body ++
        optTabLine sk depth endm ++ optLine sk depth sfx) := by
  simp only [sCore, hbody]

/-- C7 counterexample: a Section node whose `value` is `None` (the default
of `Sec()`, used for `File.top`/`File.bot`) with one leaf child renders to
just the child's line: non-empty, but containing no occurrence of the
sink's comment marker `#`, hence no comment-wrapped open/close banner
lines at all — contradicting the claim that the block's first and last
content lines are banner lines for every Section node with children. -/
theorem sec_banner_requires_value :
    gen 3 [{ kind := .sec, nest := [1] }, sLeaf "x"] { kind := .py } 0 0 false
      = .ok ("x\n") ∧
    ("x\n" : String) ≠ "" ∧
    ¬ ('#' ∈ "x\n".toList) := by
  refine ⟨rfl, by decide, by decide⟩

/-- C7 amended: a Section node with zero children renders to the empty
string under every sink; with at least one child and a non-`None` value
the rendered block (in between an optional prefix line and an optional
suffix line) opens with the comment-wrapped banner `comment \ value` and
closes with the banner `comment / value`, and is non-empty; when the value
is `None` no banner lines are emitted and the output is just the prefix
line, the children's output, and the suffix line. -/
theorem sec_render_spec :
    (∀ (fuel : Nat) (h : Heap) (sk : Sink) (id depth : Nat),
      (hGet h id).kind = .sec → (hGet h id).nest = [] →
      gen (fuel + 1) h sk id depth false = .ok "") ∧
    (∀ (fuel : Nat) (h : Heap) (sk : Sink) (id depth : Nat) (v body : String),
      (hGet h id).kind = .sec → (hGet h id).value = some v →
      (hGet h id).nest ≠ [] →
      genKids (fun c d i => gen fuel h sk c d i) (hGet h id).nest depth false
        = .ok body →
      gen (fuel + 1) h sk id depth false =
        .ok (optLine sk depth (hGet h id).pfx ++
          tabLine sk depth (secOpen sk v) ++ body ++
          tabLine sk depth (secClose sk v) ++
          optLine sk depth (hGet h id).sfx)) ∧
    (∀ (fuel : Nat) (h : Heap) (sk : Sink) (id depth : Nat) (body : String),
      (hGet h id).kind = .sec → (hGet h id).value = none →
      (hGet h id).nest ≠ [] →
      genKids (fun c d i => gen fuel h sk c d i) (hGet h id).nest depth false
        = .ok body →
      gen (fuel + 1) h sk id depth false =
        .ok (optLine sk depth (hGet h id).pfx ++ body ++
          optLine sk depth (hGet h id).sfx)) ∧
    (∀ (sk : Sink) (depth : Nat) (v : String),
      tabLine sk depth (secOpen sk v) ≠ "") ∧
    (gen 3 [{ kind := .sec, value := some "v", nest := [1] }, sLeaf "x"]
        { kind := .py } 0 0 false = .ok ("# \\ v\nx\n# / v\n") ∧
      ("# \\ v\nx\n# / v\n" : String) ≠ "") := by
  refine ⟨?_, ?_, ?_, ?_, rfl, by decide⟩
  · intro fuel h sk id depth hk hn
    simp [gen, hk, hn]
  · intro fuel h sk id depth v body hk hv hn hbody
    cases hne : (hGet h id).nest with
    | nil => exact absurd hne hn
    | cons a l =>
      rw [hne] at hbody
      simp only [gen, hk, hne, hv, if_false, Bool.false_eq_true, List.isEmpty_cons,
        hbody, Option.map_some]
      rfl
  · intro fuel h sk id depth body hk hv hn hbody
    cases hne : (hGet h id).nest with
    | nil => exact absurd hne hn
    | cons a l =>
      rw [hne] at hbody
      simp only [gen, hk, hne, hv, if_false, Bool.false_eq_true, List.isEmpty_cons,
        hbody, Option.map_none]
      simp [optTabLine]
  · intro sk depth v
    intro hc
    have hlc := congrArg String.length hc
    simp [tabLine, String.length_append] at hlc
    exact absurd hlc.2 (by decide)

/-- Closed instance of `sec_render_spec`: the banner-wrapped rendering of
a one-child valued Section at the Python sink. -/
theorem sec_render_spec_witness :
    gen 3 [{ kind := .sec, value := some "v", nest := [1] }, sLeaf "x"]
        { kind := .py } 0 0 false =
      .ok (optLine { kind := .py } 0
          (hGet [{ kind := .sec, value := some "v", nest := [1] }, sLeaf "x"] 0).pfx ++
        tabLine { kind := .py } 0 (secOpen { kind := .py } "v") ++ "x\n" ++
        tabLine { kind := .py } 0 (secClose { kind := .py } "v") ++
        optLine { kind := .py } 0
          (hGet [{ kind := .sec, value := some "v", nest := [1] }, sLeaf "x"] 0).sfx) :=
  sec_render_spec.2.1 2 [{ kind := .sec, value := some "v", nest := [1] }, sLeaf "x"]
    { kind := .py } 0 0 "v" "x\n" rfl rfl (by decide) rfl

/-! ## C8: Declaration rendering per dialect -/

/-- C8: rendering a Declaration named `run` with no args and no return
against the Rust-file (brace) sink produces the `fn run() {` header line,
the children rendered one depth deeper in nest order, and a closing `}`
line; against the Python-file (colon) sink it produces the `def run():`
header line followed by the same children with nothing appended after
them (no closing-brace line); any other sink class is rejected with a
fatal `TypeError` naming it.  The final conjuncts instantiate this
concretely: the brace output decomposes around `"run() {"` and a `}`
line, the colon output contains no `}` at all, and both contain the
child's rendered line. -/
theorem fn_dialect_spec :
    (∀ (fuel : Nat) (h : Heap) (sk : Sink) (id depth : Nat) (body : String),
      sk.kind = .rs → (hGet h id).kind = .fn →
      (hGet h id).value = some "run" → (hGet h id).args = [] →
      (hGet h id).ret = none →
      genKids (fun c d i => gen fuel h sk c d i) (hGet h id).nest (depth + 1) false
        = .ok body →
      gen (fuel + 1) h sk id depth false =
        .ok (optLine sk depth (hGet h id).pfx ++
          tabLine sk depth ("fn run() \x7b") ++ body ++
          tabLine sk depth ("\x7d") ++ optLine sk depth (hGet h id).sfx)) ∧
    (∀ (fuel : Nat) (h : Heap) (sk : Sink) (id depth : Nat) (body : String),
      sk.kind = .py → (hGet h id).kind = .fn →
      (hGet h id).value = some "run" → (hGet h id).args = [] →
      (hGet h id).ret = none →
      genKids (fun c d i => gen fuel h sk c d i) (hGet h id).nest (depth + 1) false
        = .ok body →
      gen (fuel + 1) h sk id depth false =
        .ok (optLine sk depth (hGet h id).pfx ++
          tabLine sk depth ("def run():") ++ body ++
          optLine sk depth (hGet h id).sfx)) ∧
    (∀ (fuel : Nat) (h : Heap) (sk : Sink) (id depth : Nat),
      (hGet h id).kind = .fn → sk.kind ≠ .rs → sk.kind ≠ .py →
      gen (fuel + 1) h sk id depth false =
        .error (.typeError "gen" sk.kind.clsName)) ∧
    (gen 3 [{ kind := .fn, value := some "run", nest := [1] }, sLeaf "x"]
        { comment := "//", kind := .rs } 0 0 false =
      .ok ("fn " ++ "run() \x7b" ++ "\n" ++ "    x\n" ++ "\x7d" ++ "\n")) ∧
    (gen 3 [{ kind := .fn, value := some "run", nest := [1] }, sLeaf "x"]
        { kind := .py } 0 0 false =
      .ok ("def run():" ++ "\n" ++ "    x\n")) ∧
    ¬ ('\x7d' ∈ ("def run():\n    x\n" : String).toList) := by
  refine ⟨?_, ?_, ?_, rfl, rfl, by decide⟩
  · intro fuel h sk id depth body hsk hk hv hargs hret hbody
    simp only [gen, hk, hsk, if_false, Bool.false_eq_true]
    rw [sCore_ok _ _ _ _ _ _ _ _ _ hbody]
    simp only [fnArgs, fnRets, hv, hargs, hret, optTabLine]
    rfl
  · intro fuel h sk id depth body hsk hk hv hargs hret hbody
    simp only [gen, hk, hsk, if_false, Bool.false_eq_true]
    rw [sCore_ok _ _ _ _ _ _ _ _ _ hbody]
    simp only [fnArgs, fnRets, hv, hargs, hret, optTabLine]
    have hfold : ("def " ++ pyStr (some "run") ++ "(" ++ String.intercalate ", " [] ++ "):")
        = "def run():" := rfl
    rw [hfold]
    simp
  · intro fuel h sk id depth hk h1 h2
    cases hks : sk.kind with
    | rs => exact absurd hks h1
    | py => exact absurd hks h2
    | html => simp [gen, hk, hks, FileKind.clsName]
    | tera => simp [gen, hk, hks, FileKind.clsName]
    | giti => simp [gen, hk, hks, FileKind.clsName]
    | plain => simp [gen, hk, hks, FileKind.clsName]

/-- Closed instance of `fn_dialect_spec`: the brace-dialect shape at a
concrete one-child declaration. -/
theorem fn_dialect_spec_witness :
    gen 3 [{ kind := .fn, value := some "run", nest := [1] }, sLeaf "x"]
        { comment := "//", kind := .rs } 0 0 false =
      .ok (optLine { comment := "//", kind := .rs } 0
          (hGet [{ kind := .fn, value := some "run", nest := [1] }, sLeaf "x"] 0).pfx ++
        tabLine { comment := "//", kind := .rs } 0 ("fn run() \x7b") ++ "    x\n" ++
        tabLine { comment := "//", kind := .rs } 0 ("\x7d") ++
        optLine { comment := "//", kind := .rs } 0
          (hGet [{ kind := .fn, value := some "run", nest := [1] }, sLeaf "x"] 0).sfx) :=
  fn_dialect_spec.1 2 [{ kind := .fn, value := some "run", nest := [1] }, sLeaf "x"]
    { comment := "//", kind := .rs } 0 0 "    x\n" rfl rfl rfl rfl rfl rfl

/-! ## C9: inline rendering -/

/-- C9 counterexample: an inline markup node with a scalar child that
itself has a child: the grandchild (value `g`) is not emitted at all — an
inline-rendered `S` child contributes only its own scalar value and does
not recurse — contradicting the claim that all descendants (children,
grandchildren, and deeper) are emitted. -/
theorem htmli_descendants_dropped :
    gen 5 [{ kind := .htmli, value := some "title", nest := [1] },
           { kind := .s, value := some "v", nest := [2] },
           { kind := .s, value := some "g" }] { kind := .html } 0 0 false
      = .ok ("<title>v</title>\n") ∧
    ¬ ('g' ∈ ("<title>v</title>\n" : String).toList) := by
  refine ⟨rfl, by decide⟩

/-- Right-fold concatenation without separators, for stating what an
inline node emits between its tags. -/
def strConcat (l : List String) : String := l.foldr (· ++ ·) ""

theorem genKids_all_s (fuel : Nat) (h : Heap) (sk : Sink) :
    ∀ (l : List Nat) (depth : Nat), (∀ c ∈ l, (hGet h c).kind = .s) →
      genKids (fun c d i => gen (fuel + 1) h sk c d i) l depth true
        = .ok (strConcat (l.map (fun c => pyStr (hGet h c).value))) := by
  intro l
  induction l with
  | nil => intro depth hall; rfl
  | cons c rest ih =>
    intro depth hall
    have hc : (hGet h c).kind = .s := hall c (List.mem_cons_self c rest)
    have hg : gen (fuel + 1) h sk c depth true = .ok (pyStr (hGet h c).value) := by
      simp [gen, hc]
    simp only [genKids, hg, ih depth (fun x hx => hall x (List.mem_cons_of_mem c hx))]
    rfl

/-- C9 amended: rendering an inline markup node emits the open tag (with
sorted attributes) followed by each *direct* child rendered inline and the
closing tag plus one newline; an `S` child rendered inline contributes
exactly its scalar value — no indentation, no newline, and none of its own
descendants (they are dropped).  In particular, when every child is an `S`
node, the whole element is the open tag, the concatenation of the
children's scalar values with no separators, and the closing tag, on a
single line. -/
theorem htmli_inline_spec :
    (∀ (fuel : Nat) (h : Heap) (sk : Sink) (id depth : Nat),
      (hGet h id).kind = .s →
      gen (fuel + 1) h sk id depth true = .ok (pyStr (hGet h id).value)) ∧
    (∀ (fuel : Nat) (h : Heap) (sk : Sink) (id depth : Nat) (inl : Bool)
      (body : String), (hGet h id).kind = .htmli →
      genKids (fun c d i => gen fuel h sk c d i) (hGet h id).nest (depth + 1) true
        = .ok body →
      gen (fuel + 1) h sk id depth inl =
        .ok (strRepeat sk.tab depth ++ "<" ++ pyStr (hGet h id).value ++
          attrsStr h (hGet h id) ++ ">" ++ body ++ "</" ++
          pyStr (hGet h id).value ++ ">" ++ "\n")) ∧
    (∀ (fuel : Nat) (h : Heap) (sk : Sink) (id depth : Nat),
      (hGet h id).kind = .htmli →
      (∀ c ∈ (hGet h id).nest, (hGet h c).kind = .s) →
      gen (fuel + 2) h sk id depth false =
        .ok (strRepeat sk.tab depth ++ "<" ++ pyStr (hGet h id).value ++
          attrsStr h (hGet h id) ++ ">" ++
          strConcat ((hGet h id).nest.map (fun c => pyStr (hGet h c).value)) ++
          "</" ++ pyStr (hGet h id).value ++ ">" ++ "\n")) := by
  refine ⟨?_, ?_, ?_⟩
  · intro fuel h sk id depth hk
    simp [gen, hk]
  · intro fuel h sk id depth inl body hk hbody
    simp only [gen, hk, hbody]
    simp [String.append_assoc]
  · intro fuel h sk id depth hk hall
    have hbody := genKids_all_s fuel h sk (hGet h id).nest (depth + 1) hall
    conv_lhs => rw [gen]
    simp only [hk, hbody]
    simp [String.append_assoc]

/-- Closed instance of `htmli_inline_spec`: a title element with a single
scalar child renders on one line with the child's value between the tags. -/
theorem htmli_inline_spec_witness :
    gen 5 [{ kind := .htmli, value := some "title", nest := [1] },
           { kind := .s, value := some "v", nest := [2] },
           { kind := .s, value := some "g" }] { kind := .html } 0 0 false =
      .ok (strRepeat ({ kind := .html } : Sink).tab 0 ++ "<" ++
        pyStr (hGet [{ kind := .htmli, value := some "title", nest := [1] },
           { kind := .s, value := some "v", nest := [2] },
           { kind := .s, value := some "g" }] 0).value ++
        attrsStr [{ kind := .htmli, value := some "title", nest := [1] },
           { kind := .s, value := some "v", nest := [2] },
           { kind := .s, value := some "g" }]
          (hGet [{ kind := .htmli, value := some "title", nest := [1] },
           { kind := .s, value := some "v", nest := [2] },
           { kind := .s, value := some "g" }] 0) ++ ">" ++
        strConcat ((hGet [{ kind := .htmli, value := some "title", nest := [1] },
           { kind := .s, value := some "v", nest := [2] },
           { kind := .s, value := some "g" }] 0).nest.map
          (fun c => pyStr (hGet [{ kind := .htmli, value := some "title", nest := [1] },
           { kind := .s, value := some "v", nest := [2] },
           { kind := .s, value := some "g" }] c).value)) ++
        "</" ++ pyStr (hGet [{ kind := .htmli, value := some "title", nest := [1] },
           { kind := .s, value := some "v", nest := [2] },
           { kind := .s, value := some "g" }] 0).value ++ ">" ++ "\n") :=
  htmli_inline_spec.2.2 3 [{ kind := .htmli, value := some "title", nest := [1] },
           { kind := .s, value := some "v", nest := [2] },
           { kind := .s, value := some "g" }] { kind := .html } 0 0 rfl
    (by decide)
